import Mathlib

/-!
Verification of the ordered concurrent map in `src/src/mymap/map.go`
(package `ordered_sync_map`).

The Go code keeps three pieces of state:
* `mp  : map[interface\x7b\x7d]*list.Element` — the hash index from key to list node;
* `dll : *list.List` — a doubly-linked list of `mapElement\x7bkey, value\x7d`
  structs, new nodes pushed at the front;
* `mu  : sync.RWMutex` — the lock (not modelled; every public operation is a
  single critical section, so each operation is embedded as one atomic
  function on the state).

Shallow embedding choices:
* Go `interface\x7b\x7d` values become the inductive type `GoVal`; a
  `mapElement` struct boxed into an `interface\x7b\x7d` (as happens in
  `e.Value`) is the constructor `GoVal.velem`.
* `list.Element` identity becomes a numeric node id.  `Map.nodes` is the heap
  of allocated elements (id to current `Value`), `Map.dll` is the linked list
  as the sequence of node ids from front to back, and `Map.mp` is the Go map
  as an association list from key to node id.  `Map.nextId` yields fresh ids.
* `e.Value = mapElement\x7b...\x7d` (in-place mutation) is `nodesSet`, which
  rewrites the heap entry of that id; `list.Remove` erases an id from `dll`
  without deallocating the heap entry, exactly as Go keeps the `Element`
  object alive (this is what `GetAndDelete` relies on when it reads `e.Value`
  after `Remove`).
* `Get` only takes the read lock and mutates nothing, so it is embedded as a
  pure function `Map → GoVal → GoVal × Bool` with no output state.
-/

/-- A Go `interface\x7b\x7d` value as used by the map: `nil`, an int, a
string, or a boxed `mapElement` struct (key and value fields). -/
inductive GoVal : Type where
  | vnil : GoVal
  | vint : Int → GoVal
  | vstr : String → GoVal
  | velem : GoVal → GoVal → GoVal
deriving DecidableEq, Repr

/-- The Go struct `mapElement\x7bkey, value interface\x7b\x7d\x7d`. -/
structure MapElement where
  key : GoVal
  value : GoVal
deriving DecidableEq, Repr

/-- The state of a `Map` instance: the heap of list elements, the
doubly-linked list (front first), the hash index, and the fresh-id counter. -/
structure Map where
  nodes : List (Nat × MapElement)
  dll : List Nat
  mp : List (GoVal × Nat)
  nextId : Nat
deriving DecidableEq, Repr

/-- Go map lookup `m.mp[key]`: the node id stored for `key`, if any. -/
def mpGet (mp : List (GoVal × Nat)) (k : GoVal) : Option Nat :=
  (mp.find? (fun p => p.1 == k)).map Prod.snd

/-- Go map removal `delete(m.mp, key)`. -/
def mpDelete (mp : List (GoVal × Nat)) (k : GoVal) : List (GoVal × Nat) :=
  mp.filter (fun p => !(p.1 == k))

/-- Dereference a `*list.Element`: the current `Value` of node `id`
(the default is never reached on well-formed states). -/
def nodesGet (nodes : List (Nat × MapElement)) (id : Nat) : MapElement :=
  ((nodes.find? (fun p => p.1 == id)).map Prod.snd).getD ⟨.vnil, .vnil⟩

/-- In-place assignment `e.Value = me` for the element with node id `id`. -/
def nodesSet (nodes : List (Nat × MapElement)) (id : Nat) (me : MapElement) :
    List (Nat × MapElement) :=
  nodes.map (fun p => if p.1 == id then (id, me) else p)

/-- `New()`: an initialized empty Map. -/
def Map.new : Map := ⟨[], [], [], 0⟩

/-- `Get(key)`: returns `(value, true)` if present, `(nil, false)` otherwise.
Takes only the read lock and performs no mutation, hence no output state. -/
def Map.get (m : Map) (k : GoVal) : GoVal × Bool :=
  match mpGet m.mp k with
  | none => (.vnil, false)
  | some id => ((nodesGet m.nodes id).value, true)

/-- `Put(key, val)`: if absent, `m.mp[key] = m.dll.PushFront(mapElement\x7b...\x7d)`;
if present, `e.Value = mapElement\x7bkey, val\x7d` in place. -/
def Map.put (m : Map) (k v : GoVal) : Map :=
  match mpGet m.mp k with
  | none =>
      { nodes := (m.nextId, ⟨k, v⟩) :: m.nodes,
        dll := m.nextId :: m.dll,
        mp := (k, m.nextId) :: m.mp,
        nextId := m.nextId + 1 }
  | some id => { m with nodes := nodesSet m.nodes id ⟨k, v⟩ }

/-- `Delete(key)`: if present, `m.dll.Remove(e)` and `delete(m.mp, key)`,
returning `true`; otherwise no mutation and `false`. -/
def Map.delete (m : Map) (k : GoVal) : Map × Bool :=
  match mpGet m.mp k with
  | none => (m, false)
  | some id =>
      ({ m with dll := m.dll.erase id, mp := mpDelete m.mp k }, true)

/-- `GetOrPut(key, value)`: overwrite in place and return `(value, true)` if
present; insert a fresh front node and return `(value, false)` if absent. -/
def Map.getOrPut (m : Map) (k v : GoVal) : Map × GoVal × Bool :=
  match mpGet m.mp k with
  | some id => ({ m with nodes := nodesSet m.nodes id ⟨k, v⟩ }, v, true)
  | none =>
      ({ nodes := (m.nextId, ⟨k, v⟩) :: m.nodes,
         dll := m.nextId :: m.dll,
         mp := (k, m.nextId) :: m.mp,
         nextId := m.nextId + 1 }, v, false)

/-- `GetAndDelete(key)`: if present, remove it and return `(e.Value, true)`
— note the Go code returns `e.Value`, the boxed `mapElement` struct itself,
not its `value` field; if absent, `(nil, false)`. -/
def Map.getAndDelete (m : Map) (k : GoVal) : Map × GoVal × Bool :=
  match mpGet m.mp k with
  | some id =>
      ({ m with dll := m.dll.erase id, mp := mpDelete m.mp k },
       GoVal.velem (nodesGet m.nodes id).key (nodesGet m.nodes id).value, true)
  | none => (m, .vnil, false)

/-- `Length()`: `m.dll.Len()`. -/
def Map.length (m : Map) : Nat := m.dll.length

/-- The sequence of `(key, value)` arguments `OrderedRange` passes to its
callback, in call order: the walk starts at `m.dll.Back()` and follows
`Prev()` towards the front, i.e. traverses `dll` back to front. -/
def Map.orderedVisits (m : Map) : List (GoVal × GoVal) :=
  m.dll.reverse.map (fun id => ((nodesGet m.nodes id).key, (nodesGet m.nodes id).value))

/-- The multiset of `(key, value)` arguments `UnorderedRange` passes to its
callback (`f(k, v.Value.(mapElement).value)` for each index entry); the Go
iteration order over the hash map is unspecified, modelled here as the
association-list order. -/
def Map.unorderedVisits (m : Map) : List (GoVal × GoVal) :=
  m.mp.map (fun p => (p.1, (nodesGet m.nodes p.2).value))

/-- `true` iff `key` is present in the index. -/
def Map.containsKey (m : Map) (k : GoVal) : Bool :=
  (mpGet m.mp k).isSome

/-- Apply a sequence of `Put` operations in order. -/
def Map.putList (m : Map) (ops : List (GoVal × GoVal)) : Map :=
  ops.foldl (fun acc p => acc.put p.1 p.2) m

/-- Well-formedness of a map state, as maintained by the Go code: unique
index keys, unique heap ids, unique list nodes, every index entry points at a
live list node whose stored key is the index key, every list node is indexed,
and every allocated id is below the fresh-id counter. -/
def Map.WF (m : Map) : Prop :=
  (m.mp.map Prod.fst).Nodup ∧
  (m.nodes.map Prod.fst).Nodup ∧
  m.dll.Nodup ∧
  (∀ p ∈ m.mp, p.2 ∈ m.dll) ∧
  (∀ id ∈ m.dll, ∃ p ∈ m.mp, p.2 = id) ∧
  (∀ p ∈ m.mp, (p.2, nodesGet m.nodes p.2) ∈ m.nodes ∧
    (nodesGet m.nodes p.2).key = p.1) ∧
  (∀ p ∈ m.nodes, p.1 < m.nextId) ∧
  (∀ id ∈ m.dll, id < m.nextId)

instance (m : Map) : Decidable m.WF := by
  unfold Map.WF; infer_instance

/-- The states reachable from `New()` by the public mutating operations. -/
inductive Map.Reachable : Map → Prop where
  | new : Map.Reachable Map.new
  | put {m} (k v : GoVal) : Map.Reachable m → Map.Reachable (m.put k v)
  | del {m} (k : GoVal) : Map.Reachable m → Map.Reachable (m.delete k).1
  | getOrPut {m} (k v : GoVal) : Map.Reachable m →
      Map.Reachable (m.getOrPut k v).1
  | getAndDelete {m} (k : GoVal) : Map.Reachable m →
      Map.Reachable (m.getAndDelete k).1

/-! ### Basic lemmas about the index and the heap -/

theorem mpGet_eq_none_iff {mp : List (GoVal × Nat)} {k : GoVal} :
    mpGet mp k = none ↔ ∀ p ∈ mp, p.1 ≠ k := by
  simp [mpGet, List.find?_eq_none]

theorem mem_of_mpGet_eq_some {mp : List (GoVal × Nat)} {k : GoVal} {id : Nat}
    (h : mpGet mp k = some id) : (k, id) ∈ mp := by
  simp only [mpGet, Option.map_eq_some'] at h
  obtain ⟨p, hp, rfl⟩ := h
  have hmem := List.mem_of_find?_eq_some hp
  have hkey := List.find?_some hp
  simp only [beq_iff_eq] at hkey
  cases p; simp_all

theorem mpGet_eq_some_of_mem {mp : List (GoVal × Nat)} {k : GoVal} {id : Nat}
    (hnd : (mp.map Prod.fst).Nodup) (hmem : (k, id) ∈ mp) :
    mpGet mp k = some id := by
  induction mp with
  | nil => cases hmem
  | cons q mp ih =>
      simp only [List.map_cons, List.nodup_cons] at hnd
      rcases List.mem_cons.mp hmem with h | h
      · subst h; simp [mpGet]
      · have hne : q.1 ≠ k := by
          intro hq
          exact hnd.1 (hq ▸ (List.mem_map.mpr ⟨(k, id), h, rfl⟩))
        simpa [mpGet, List.find?_cons_of_neg, hne] using ih hnd.2 h

theorem nodesGet_of_mem {nodes : List (Nat × MapElement)} {id : Nat}
    {me : MapElement} (hnd : (nodes.map Prod.fst).Nodup)
    (hmem : (id, me) ∈ nodes) : nodesGet nodes id = me := by
  induction nodes with
  | nil => cases hmem
  | cons q nodes ih =>
      simp only [List.map_cons, List.nodup_cons] at hnd
      rcases List.mem_cons.mp hmem with h | h
      · subst h; simp [nodesGet]
      · have hne : q.1 ≠ id := by
          intro hq
          exact hnd.1 (hq ▸ (List.mem_map.mpr ⟨(id, me), h, rfl⟩))
        simpa [nodesGet, List.find?_cons_of_neg, hne] using ih hnd.2 h

theorem nodesGet_cons_ne {nodes : List (Nat × MapElement)}
    {q : Nat × MapElement} {id : Nat} (h : q.1 ≠ id) :
    nodesGet (q :: nodes) id = nodesGet nodes id := by
  simp [nodesGet, List.find?_cons_of_neg, h]

theorem nodesSet_map_fst (nodes : List (Nat × MapElement)) (id : Nat)
    (me : MapElement) :
    (nodesSet nodes id me).map Prod.fst = nodes.map Prod.fst := by
  induction nodes with
  | nil => rfl
  | cons q nodes ih =>
      by_cases h : q.1 = id <;> simp [nodesSet, h, beq_iff_eq] at ih ⊢ <;>
        simpa [nodesSet] using ih

theorem nodesGet_nodesSet_ne {nodes : List (Nat × MapElement)}
    {id id2 : Nat} {me : MapElement} (h : id2 ≠ id) :
    nodesGet (nodesSet nodes id me) id2 = nodesGet nodes id2 := by
  induction nodes with
  | nil => rfl
  | cons q nodes ih =>
      by_cases hq : q.1 = id
      · subst hq
        rw [show nodesSet (q :: nodes) q.1 me = (q.1, me) :: nodesSet nodes q.1 me by
          simp [nodesSet]]
        rw [nodesGet_cons_ne (show (q.1, me).1 ≠ id2 from fun hh => h hh.symm),
          nodesGet_cons_ne (show q.1 ≠ id2 from fun hh => h hh.symm)]
        exact ih
      · rw [show nodesSet (q :: nodes) id me = q :: nodesSet nodes id me by
          simp [nodesSet, hq]]
        by_cases hq2 : q.1 = id2
        · subst hq2; simp [nodesGet]
        · rw [nodesGet_cons_ne hq2, nodesGet_cons_ne hq2]; exact ih

theorem mem_nodesSet_self {nodes : List (Nat × MapElement)} {id : Nat}
    {me0 : MapElement} (me : MapElement) (hmem : (id, me0) ∈ nodes) :
    (id, me) ∈ nodesSet nodes id me := by
  have h2 : (if ((id, me0).1 == id) = true then (id, me) else (id, me0)) ∈
      nodesSet nodes id me :=
    List.mem_map_of_mem (fun p => if p.1 == id then (id, me) else p) hmem
  simpa using h2

theorem nodesGet_nodesSet_self {nodes : List (Nat × MapElement)} {id : Nat}
    {me0 : MapElement} (me : MapElement) (hnd : (nodes.map Prod.fst).Nodup)
    (hmem : (id, me0) ∈ nodes) : nodesGet (nodesSet nodes id me) id = me :=
  nodesGet_of_mem (by rw [nodesSet_map_fst]; exact hnd)
    (mem_nodesSet_self me hmem)

theorem mem_nodesSet_of_ne {nodes : List (Nat × MapElement)}
    {q : Nat × MapElement} {id : Nat} {me : MapElement}
    (hq : q ∈ nodes) (hne : q.1 ≠ id) : q ∈ nodesSet nodes id me := by
  have h2 : (if (q.1 == id) = true then (id, me) else q) ∈ nodesSet nodes id me :=
    List.mem_map_of_mem (fun p => if p.1 == id then (id, me) else p) hq
  simpa [hne] using h2

theorem nodesSet_fst_mem {nodes : List (Nat × MapElement)} {id : Nat}
    {me : MapElement} {p : Nat × MapElement} (hp : p ∈ nodesSet nodes id me) :
    p.1 ∈ nodes.map Prod.fst := by
  have := List.mem_map_of_mem Prod.fst hp
  rwa [nodesSet_map_fst] at this

theorem mp_fst_inj {mp : List (GoVal × Nat)}
    (hnd : (mp.map Prod.fst).Nodup) {k : GoVal} {a b : Nat}
    (h1 : (k, a) ∈ mp) (h2 : (k, b) ∈ mp) : a = b := by
  have e1 := mpGet_eq_some_of_mem hnd h1
  have e2 := mpGet_eq_some_of_mem hnd h2
  rw [e1] at e2
  exact Option.some_inj.mp e2

theorem wf_mp_snd_inj {m : Map} (h : m.WF) {k1 k2 : GoVal} {id : Nat}
    (h1 : (k1, id) ∈ m.mp) (h2 : (k2, id) ∈ m.mp) : k1 = k2 := by
  have e1 := (h.2.2.2.2.2.1 (k1, id) h1).2
  have e2 := (h.2.2.2.2.2.1 (k2, id) h2).2
  simp only at e1 e2
  rw [e1] at e2
  exact e2

theorem wf_new : Map.new.WF := by decide

theorem wf_put {m : Map} (h : m.WF) (k v : GoVal) : (m.put k v).WF := by
  obtain ⟨hmp, hnodes, hdll, hindll, hdllin, hnode, hnlt, hdlt⟩ := h
  unfold Map.put
  cases habs : mpGet m.mp k with
  | none =>
      have hkabs : ∀ p ∈ m.mp, p.1 ≠ k := mpGet_eq_none_iff.mp habs
      refine ⟨?_, ?_, ?_, ?_, ?_, ?_, ?_, ?_⟩
      · simp only [List.map_cons, List.nodup_cons]
        refine ⟨fun hc => ?_, hmp⟩
        obtain ⟨p, hp, hpk⟩ := List.mem_map.mp hc
        exact hkabs p hp hpk
      · simp only [List.map_cons, List.nodup_cons]
        refine ⟨fun hc => ?_, hnodes⟩
        obtain ⟨p, hp, hpk⟩ := List.mem_map.mp hc
        exact absurd hpk (Nat.ne_of_lt (hnlt p hp))
      · exact List.nodup_cons.mpr ⟨fun hc => absurd rfl
          (Nat.ne_of_lt (hdlt _ hc)).symm, hdll⟩
      · intro p hp
        rcases List.mem_cons.mp hp with hp | hp
        · subst hp; exact List.mem_cons_self _ _
        · exact List.mem_cons_of_mem _ (hindll p hp)
      · intro id hid
        rcases List.mem_cons.mp hid with hid | hid
        · exact ⟨(k, m.nextId), List.mem_cons_self _ _, hid.symm⟩
        · obtain ⟨p, hp, hpe⟩ := hdllin id hid
          exact ⟨p, List.mem_cons_of_mem _ hp, hpe⟩
      · intro p hp
        rcases List.mem_cons.mp hp with hp | hp
        · subst hp
          constructor
          · simp [nodesGet]
          · simp [nodesGet]
        · have hne : (m.nextId, MapElement.mk k v).1 ≠ p.2 :=
            Nat.ne_of_gt (hdlt _ (hindll p hp))
          rw [nodesGet_cons_ne hne]
          exact ⟨List.mem_cons_of_mem _ (hnode p hp).1, (hnode p hp).2⟩
      · intro p hp
        rcases List.mem_cons.mp hp with hp | hp
        · subst hp; exact Nat.lt_succ_self _
        · exact Nat.lt_succ_of_lt (hnlt p hp)
      · intro id hid
        rcases List.mem_cons.mp hid with hid | hid
        · subst hid; exact Nat.lt_succ_self _
        · exact Nat.lt_succ_of_lt (hdlt id hid)
  | some id =>
      have hkmem : (k, id) ∈ m.mp := mem_of_mpGet_eq_some habs
      have hwf : m.WF := ⟨hmp, hnodes, hdll, hindll, hdllin, hnode, hnlt, hdlt⟩
      refine ⟨hmp, ?_, hdll, hindll, hdllin, ?_, ?_, hdlt⟩
      · rw [nodesSet_map_fst]; exact hnodes
      · intro p hp
        by_cases hpe : p.2 = id
        · have hpk : p.1 = k := by
            subst hpe
            exact wf_mp_snd_inj hwf hp hkmem
          have hold := hnode (k, id) hkmem
          rw [hpe, nodesGet_nodesSet_self (MapElement.mk k v) hnodes hold.1]
          exact ⟨mem_nodesSet_self _ hold.1, hpk.symm⟩
        · rw [nodesGet_nodesSet_ne hpe]
          exact ⟨mem_nodesSet_of_ne (hnode p hp).1 hpe, (hnode p hp).2⟩
      · intro p hp
        obtain ⟨q, hq, hqe⟩ := List.mem_map.mp (nodesSet_fst_mem hp)
        rw [← hqe]
        exact hnlt q hq

theorem wf_deleteFst {m : Map} (h : m.WF) (k : GoVal) : (m.delete k).1.WF := by
  obtain ⟨hmp, hnodes, hdll, hindll, hdllin, hnode, hnlt, hdlt⟩ := h
  have hwf : m.WF := ⟨hmp, hnodes, hdll, hindll, hdllin, hnode, hnlt, hdlt⟩
  unfold Map.delete
  cases habs : mpGet m.mp k with
  | none => exact hwf
  | some id =>
      have hkmem : (k, id) ∈ m.mp := mem_of_mpGet_eq_some habs
      refine ⟨?_, hnodes, hdll.erase id, ?_, ?_, ?_, hnlt, ?_⟩
      · exact (List.filter_sublist _).map Prod.fst |>.nodup hmp
      · intro p hp
        have hpmp : p ∈ m.mp := List.mem_of_mem_filter hp
        have hpk : p.1 ≠ k := by
          have := List.of_mem_filter hp
          simpa using this
        have hpne : p.2 ≠ id := by
          intro hc
          exact hpk (wf_mp_snd_inj hwf (by rw [← hc]; simpa using hpmp) hkmem)
        exact (hdll.mem_erase_iff.mpr ⟨hpne, hindll p hpmp⟩)
      · intro id2 hid2
        have hne : id2 ≠ id := (hdll.mem_erase_iff.mp hid2).1
        have hmem : id2 ∈ m.dll := (hdll.mem_erase_iff.mp hid2).2
        obtain ⟨p, hp, hpe⟩ := hdllin id2 hmem
        have hpk : p.1 ≠ k := by
          intro hc
          have hsnd : p.2 = id := mp_fst_inj hmp (by rw [← hc]; simpa using hp)
            hkmem
          exact hne (by rw [← hpe, hsnd])
        refine ⟨p, List.mem_filter.mpr ⟨hp, by simp [hpk]⟩, hpe⟩
      · intro p hp
        exact hnode p (List.mem_of_mem_filter hp)
      · intro id2 hid2
        exact hdlt id2 (hdll.mem_erase_iff.mp hid2).2

theorem getOrPut_fst (m : Map) (k v : GoVal) :
    (m.getOrPut k v).1 = m.put k v := by
  unfold Map.getOrPut Map.put
  cases mpGet m.mp k <;> rfl

theorem getAndDelete_fst (m : Map) (k : GoVal) :
    (m.getAndDelete k).1 = (m.delete k).1 := by
  unfold Map.getAndDelete Map.delete
  cases mpGet m.mp k <;> rfl

theorem reachable_wf {m : Map} (h : m.Reachable) : m.WF := by
  induction h with
  | new => exact wf_new
  | put k v _ ih => exact wf_put ih k v
  | del k _ ih => exact wf_deleteFst ih k
  | getOrPut k v _ ih => rw [getOrPut_fst]; exact wf_put ih k v
  | getAndDelete k _ ih => rw [getAndDelete_fst]; exact wf_deleteFst ih k

/-! ### Behavior of the operations on well-formed states -/

theorem mpGet_cons_self (mp : List (GoVal × Nat)) (k : GoVal) (id : Nat) :
    mpGet ((k, id) :: mp) k = some id := by
  simp [mpGet]

theorem mpGet_cons_ne {q : GoVal × Nat} {k : GoVal} (mp : List (GoVal × Nat))
    (h : q.1 ≠ k) : mpGet (q :: mp) k = mpGet mp k := by
  simp [mpGet, List.find?_cons, h]

theorem put_get_self {m : Map} (h : m.WF) (k v : GoVal) :
    (m.put k v).get k = (v, true) := by
  cases habs : mpGet m.mp k with
  | none =>
      simp only [Map.put, habs]
      simp [Map.get, mpGet_cons_self, nodesGet]
  | some id =>
      have hk : (k, id) ∈ m.mp := mem_of_mpGet_eq_some habs
      have hmem := (h.2.2.2.2.2.1 (k, id) hk).1
      simp only [Map.put, habs]
      simp only [Map.get, habs]
      rw [nodesGet_nodesSet_self _ h.2.1 hmem]

theorem put_mpGet_ne {k k2 : GoVal} (m : Map) (v : GoVal) (h : k2 ≠ k) :
    mpGet (m.put k v).mp k2 = mpGet m.mp k2 := by
  cases habs : mpGet m.mp k with
  | none =>
      simp only [Map.put, habs]
      exact mpGet_cons_ne m.mp (fun hc => h hc.symm)
  | some id => simp only [Map.put, habs]

theorem containsKey_eq_false_iff {m : Map} {k : GoVal} :
    m.containsKey k = false ↔ mpGet m.mp k = none := by
  rw [Map.containsKey]
  cases mpGet m.mp k <;> simp

theorem containsKey_eq_true_iff {m : Map} {k : GoVal} :
    m.containsKey k = true ↔ ∃ id, mpGet m.mp k = some id := by
  rw [Map.containsKey]
  cases mpGet m.mp k <;> simp

theorem put_get_ne {m : Map} (h : m.WF) {k k2 : GoVal} (v : GoVal)
    (hne : k2 ≠ k) : (m.put k v).get k2 = m.get k2 := by
  cases habs : mpGet m.mp k with
  | none =>
      simp only [Map.get, Map.put, habs]
      rw [show mpGet ((k, m.nextId) :: m.mp) k2 = mpGet m.mp k2 from
        mpGet_cons_ne m.mp (fun hc => hne hc.symm)]
      cases h2 : mpGet m.mp k2 with
      | none => rfl
      | some id2 =>
          have hk2 : (k2, id2) ∈ m.mp := mem_of_mpGet_eq_some h2
          have hlt : id2 < m.nextId :=
            h.2.2.2.2.2.2.2 id2 (h.2.2.2.1 (k2, id2) hk2)
          show ((nodesGet ((m.nextId, MapElement.mk k v) :: m.nodes) id2).value,
            true) = ((nodesGet m.nodes id2).value, true)
          rw [nodesGet_cons_ne
            (show (m.nextId, MapElement.mk k v).1 ≠ id2 from Nat.ne_of_gt hlt)]
  | some id =>
      simp only [Map.get, Map.put, habs]
      cases h2 : mpGet m.mp k2 with
      | none => rfl
      | some id2 =>
          have hk : (k, id) ∈ m.mp := mem_of_mpGet_eq_some habs
          have hk2 : (k2, id2) ∈ m.mp := mem_of_mpGet_eq_some h2
          have hne2 : id2 ≠ id := by
            intro hc
            exact hne (wf_mp_snd_inj h (hc ▸ hk2) hk)
          show ((nodesGet (nodesSet m.nodes id (MapElement.mk k v)) id2).value,
            true) = ((nodesGet m.nodes id2).value, true)
          rw [nodesGet_nodesSet_ne hne2]

theorem put_length_absent {m : Map} {k : GoVal} (v : GoVal)
    (habs : m.containsKey k = false) : (m.put k v).length = m.length + 1 := by
  have h2 : mpGet m.mp k = none := containsKey_eq_false_iff.mp habs
  simp [Map.put, h2, Map.length]

theorem put_length_present {m : Map} {k : GoVal} (v : GoVal)
    (hpres : m.containsKey k = true) : (m.put k v).length = m.length := by
  obtain ⟨id, h2⟩ := containsKey_eq_true_iff.mp hpres
  simp [Map.put, h2, Map.length]

theorem put_dll_present {m : Map} {k : GoVal} (v : GoVal)
    (hpres : m.containsKey k = true) : (m.put k v).dll = m.dll := by
  obtain ⟨id, h2⟩ := containsKey_eq_true_iff.mp hpres
  simp [Map.put, h2]

theorem put_dll_absent {m : Map} {k : GoVal} (v : GoVal)
    (habs : m.containsKey k = false) :
    (m.put k v).dll = m.nextId :: m.dll := by
  have h2 : mpGet m.mp k = none := containsKey_eq_false_iff.mp habs
  simp [Map.put, h2]

theorem mpGet_mpDelete_self (mp : List (GoVal × Nat)) (k : GoVal) :
    mpGet (mpDelete mp k) k = none := by
  rw [mpGet_eq_none_iff]
  intro p hp
  have := List.of_mem_filter hp
  simpa using this

theorem mpGet_cons_eq {q : GoVal × Nat} {k : GoVal} (mp : List (GoVal × Nat))
    (h : q.1 = k) : mpGet (q :: mp) k = some q.2 := by
  simp [mpGet, List.find?_cons, h]

theorem mpGet_mpDelete_ne {k k2 : GoVal} (mp : List (GoVal × Nat))
    (h : k2 ≠ k) : mpGet (mpDelete mp k) k2 = mpGet mp k2 := by
  induction mp with
  | nil => rfl
  | cons q mp ih =>
      by_cases hq : q.1 = k
      · have hd : mpDelete (q :: mp) k = mpDelete mp k := by
          simp [mpDelete, hq]
        have hq2 : q.1 ≠ k2 := fun hc => h (hc ▸ hq)
        rw [hd, ih, mpGet_cons_ne mp hq2]
      · have hd : mpDelete (q :: mp) k = q :: mpDelete mp k := by
          simp [mpDelete, hq]
        rw [hd]
        by_cases hq2 : q.1 = k2
        · rw [mpGet_cons_eq _ hq2, mpGet_cons_eq _ hq2]
        · rw [mpGet_cons_ne _ hq2, mpGet_cons_ne _ hq2, ih]

theorem delete_of_absent {m : Map} {k : GoVal}
    (habs : m.containsKey k = false) : m.delete k = (m, false) := by
  have h2 : mpGet m.mp k = none := containsKey_eq_false_iff.mp habs
  simp [Map.delete, h2]

theorem delete_snd_eq (m : Map) (k : GoVal) :
    (m.delete k).2 = m.containsKey k := by
  cases h2 : mpGet m.mp k <;> simp [Map.delete, h2, Map.containsKey]

theorem delete_length {m : Map} (h : m.WF) {k : GoVal}
    (hpres : m.containsKey k = true) :
    (m.delete k).1.length + 1 = m.length := by
  obtain ⟨id, h2⟩ := containsKey_eq_true_iff.mp hpres
  have hk : (k, id) ∈ m.mp := mem_of_mpGet_eq_some h2
  have hid : id ∈ m.dll := h.2.2.2.1 (k, id) hk
  simp only [Map.delete, h2, Map.length]
  exact List.length_erase_add_one hid

theorem delete_get_self (m : Map) (k : GoVal) :
    (m.delete k).1.get k = (.vnil, false) := by
  cases h2 : mpGet m.mp k with
  | none => simp [Map.delete, h2, Map.get]
  | some id =>
      simp only [Map.delete, h2, Map.get]
      rw [show mpGet (mpDelete m.mp k) k = none from mpGet_mpDelete_self m.mp k]

theorem delete_containsKey_self (m : Map) (k : GoVal) :
    (m.delete k).1.containsKey k = false := by
  cases h2 : mpGet m.mp k with
  | none => simp [Map.delete, h2, Map.containsKey]
  | some id =>
      simp only [Map.delete, h2, Map.containsKey]
      rw [show mpGet (mpDelete m.mp k) k = none from mpGet_mpDelete_self m.mp k]
      rfl

theorem delete_get_ne {m : Map} {k k2 : GoVal} (hne : k2 ≠ k) :
    (m.delete k).1.get k2 = m.get k2 := by
  cases h2 : mpGet m.mp k with
  | none => simp [Map.delete, h2]
  | some id =>
      simp only [Map.delete, h2, Map.get]
      rw [show mpGet (mpDelete m.mp k) k2 = mpGet m.mp k2 from
        mpGet_mpDelete_ne m.mp hne]

theorem getAndDelete_snd {m : Map} (h : m.WF) {k : GoVal}
    (hpres : m.containsKey k = true) :
    (m.getAndDelete k).2 = (GoVal.velem k (m.get k).1, true) := by
  obtain ⟨id, h2⟩ := containsKey_eq_true_iff.mp hpres
  have hk : (k, id) ∈ m.mp := mem_of_mpGet_eq_some h2
  have hkey : (nodesGet m.nodes id).key = k := (h.2.2.2.2.2.1 _ hk).2
  simp [Map.getAndDelete, h2, Map.get, hkey]

theorem getAndDelete_of_absent {m : Map} {k : GoVal}
    (habs : m.containsKey k = false) : m.getAndDelete k = (m, .vnil, false) := by
  have h2 : mpGet m.mp k = none := containsKey_eq_false_iff.mp habs
  simp [Map.getAndDelete, h2]

theorem getOrPut_snd (m : Map) (k v : GoVal) :
    (m.getOrPut k v).2 = (v, m.containsKey k) := by
  cases h2 : mpGet m.mp k <;> simp [Map.getOrPut, h2, Map.containsKey]

theorem orderedVisits_put_absent {m : Map} (h : m.WF) {k : GoVal} (v : GoVal)
    (habs : m.containsKey k = false) :
    (m.put k v).orderedVisits = m.orderedVisits ++ [(k, v)] := by
  have h2 : mpGet m.mp k = none := containsKey_eq_false_iff.mp habs
  simp only [Map.put, h2, Map.orderedVisits, List.reverse_cons, List.map_append]
  congr 1
  · apply List.map_congr_left
    intro id hid
    have hlt : id < m.nextId :=
      h.2.2.2.2.2.2.2 id (List.mem_reverse.mp hid)
    rw [nodesGet_cons_ne
      (show (m.nextId, MapElement.mk k v).1 ≠ id from Nat.ne_of_gt hlt)]
  · simp [nodesGet]

theorem orderedVisits_keys_put_present {m : Map} (h : m.WF) {k : GoVal}
    (v : GoVal) (hpres : m.containsKey k = true) :
    ((m.put k v).orderedVisits).map Prod.fst =
      (m.orderedVisits).map Prod.fst := by
  obtain ⟨id, h2⟩ := containsKey_eq_true_iff.mp hpres
  have hk : (k, id) ∈ m.mp := mem_of_mpGet_eq_some h2
  have hkey : (nodesGet m.nodes id).key = k := (h.2.2.2.2.2.1 _ hk).2
  have hmem := (h.2.2.2.2.2.1 _ hk).1
  simp only [Map.put, h2, Map.orderedVisits, List.map_map]
  apply List.map_congr_left
  intro id2 hid2
  simp only [Function.comp]
  by_cases hc : id2 = id
  · subst hc
    rw [nodesGet_nodesSet_self _ h.2.1 hmem, hkey]
  · rw [nodesGet_nodesSet_ne hc]

theorem putList_orderedVisits :
    ∀ (ops : List (GoVal × GoVal)) (m : Map), m.WF →
    (∀ k ∈ ops.map Prod.fst, m.containsKey k = false) →
    (ops.map Prod.fst).Nodup →
    (m.putList ops).orderedVisits = m.orderedVisits ++ ops := by
  intro ops
  induction ops with
  | nil => intro m _ _ _; simp [Map.putList]
  | cons p ops ih =>
      intro m hwf habs hnd
      have hstep : Map.putList m (p :: ops) = Map.putList (m.put p.1 p.2) ops := by
        simp [Map.putList]
      have habsp : m.containsKey p.1 = false := habs p.1 (by simp)
      have h1 : (m.put p.1 p.2).orderedVisits = m.orderedVisits ++ [(p.1, p.2)] :=
        orderedVisits_put_absent hwf p.2 habsp
      have hwf2 : (m.put p.1 p.2).WF := wf_put hwf p.1 p.2
      simp only [List.map_cons, List.nodup_cons] at hnd
      have habs2 : ∀ k ∈ ops.map Prod.fst,
          (m.put p.1 p.2).containsKey k = false := by
        intro k hk
        have hne : k ≠ p.1 := fun hc => hnd.1 (hc ▸ hk)
        rw [Map.containsKey, put_mpGet_ne m p.2 hne]
        exact habs k (List.mem_cons_of_mem _ hk)
      rw [hstep, ih (m.put p.1 p.2) hwf2 habs2 hnd.2, h1, List.append_assoc]
      simp

theorem wf_mp_snd_nodup {m : Map} (h : m.WF) : (m.mp.map Prod.snd).Nodup := by
  have hmp : m.mp.Nodup := h.1.of_map
  apply hmp.map_on
  intro p hp q hq hpq
  have hp2 : (p.1, q.2) ∈ m.mp := by rw [← hpq]; simpa using hp
  have hq2 : (q.1, q.2) ∈ m.mp := by simpa using hq
  have hk : p.1 = q.1 := wf_mp_snd_inj h hp2 hq2
  exact Prod.ext hk hpq

theorem wf_mp_snd_perm_dll {m : Map} (h : m.WF) :
    (m.mp.map Prod.snd).Perm m.dll := by
  rw [List.perm_ext_iff_of_nodup (wf_mp_snd_nodup h) h.2.2.1]
  intro id
  constructor
  · intro hid
    obtain ⟨p, hp, hpe⟩ := List.mem_map.mp hid
    exact hpe ▸ h.2.2.2.1 p hp
  · intro hid
    obtain ⟨p, hp, hpe⟩ := h.2.2.2.2.1 id hid
    exact List.mem_map.mpr ⟨p, hp, hpe⟩

theorem wf_unorderedVisits_perm {m : Map} (h : m.WF) :
    m.unorderedVisits.Perm m.orderedVisits := by
  have h1 : m.unorderedVisits = (m.mp.map Prod.snd).map
      (fun id => ((nodesGet m.nodes id).key, (nodesGet m.nodes id).value)) := by
    rw [List.map_map]
    apply List.map_congr_left
    intro p hp
    simp only [Function.comp]
    rw [(h.2.2.2.2.2.1 p hp).2]
  rw [h1, Map.orderedVisits]
  exact ((wf_mp_snd_perm_dll h).trans (List.reverse_perm m.dll).symm).map _

theorem unorderedVisits_keys (m : Map) :
    m.unorderedVisits.map Prod.fst = m.mp.map Prod.fst := by
  rw [Map.unorderedVisits, List.map_map]
  rfl

/-! ### The claims -/

/-- C1: the claim says `GetAndDelete(k)` on a present key returns the value
that was stored for `k`.  The code instead returns `e.Value`, which is the
boxed `mapElement\x7bkey, value\x7d` struct as a whole (unlike `Get`, which
unwraps it with `.(mapElement).value`), contradicting the function doc
comment "will get the value saved against the given key".  At the failing
input `New(); Put("a", 1); GetAndDelete("a")` the code returns the pair
struct, not the stored value `1`; the removal itself and the length decrement
do happen. -/
theorem c1_getAndDelete_returns_boxed_element :
    (Map.getAndDelete (Map.new.put (.vstr "a") (.vint 1)) (.vstr "a")).2 =
      (GoVal.velem (.vstr "a") (.vint 1), true) ∧
    GoVal.velem (.vstr "a") (.vint 1) ≠ GoVal.vint 1 ∧
    (Map.getAndDelete (Map.new.put (.vstr "a") (.vint 1)) (.vstr "a")).1.length
      = 0 ∧
    (Map.new.put (.vstr "a") (.vint 1)).length = 1 := by decide

/-- C2 counterexample: after `Put("a",1); Put("b",2)` the code's
`OrderedRange` visits `("a",1)` first and `("b",2)` second — the
least-recently-inserted key first — whereas the claim says the
most-recently-inserted key `"b"` is visited first. -/
theorem c2_counterexample :
    Map.orderedVisits
        ((Map.new.put (.vstr "a") (.vint 1)).put (.vstr "b") (.vint 2)) =
      [(.vstr "a", .vint 1), (.vstr "b", .vint 2)] ∧
    ([(.vstr "a", .vint 1), (.vstr "b", .vint 2)] : List (GoVal × GoVal)) ≠
      [(.vstr "b", .vint 2), (.vstr "a", .vint 1)] := by decide

/-- C2 amended: for every sequence of Put operations with distinct keys
starting from the empty map, OrderedRange invokes the callback once per
entry in exact insertion order: the least-recently-inserted key is visited
first and the most-recently-inserted key is visited last. -/
theorem c2_ordered_range_visits_insertion_order
    (ops : List (GoVal × GoVal)) (hnd : (ops.map Prod.fst).Nodup) :
    (Map.new.putList ops).orderedVisits = ops := by
  have h := putList_orderedVisits ops Map.new wf_new (fun k _ => rfl) hnd
  simpa using h

/-- C2 witness: the amended theorem applied to the two-key insertion
sequence `[("a",1), ("b",2)]`. -/
theorem c2_witness :
    (([((GoVal.vstr "a"), (GoVal.vint 1)),
        (.vstr "b", .vint 2)] : List (GoVal × GoVal)).map Prod.fst).Nodup ∧
    (Map.new.putList [(.vstr "a", .vint 1), (.vstr "b", .vint 2)]).orderedVisits
      = [(.vstr "a", .vint 1), (.vstr "b", .vint 2)] :=
  ⟨by decide, c2_ordered_range_visits_insertion_order _ (by decide)⟩

/-- C3: `GetOrPut(k, v)` always returns the caller-supplied `v` together
with the existed flag; on an absent key it pushes a fresh node at the front
of the Sequence; in both cases a subsequent `Get(k)` returns `v`. -/
theorem c3_getOrPut_contract (m : Map) (k v : GoVal) (h : m.WF) :
    (m.getOrPut k v).2 = (v, m.containsKey k) ∧
    (m.containsKey k = false →
      (m.getOrPut k v).1.dll = m.nextId :: m.dll) ∧
    (m.getOrPut k v).1.get k = (v, true) := by
  refine ⟨getOrPut_snd m k v, ?_, ?_⟩
  · intro habs
    rw [getOrPut_fst]
    exact put_dll_absent v habs
  · rw [getOrPut_fst]
    exact put_get_self h k v

/-- C3 witness: the contract applied to the empty map (absent key) and to a
one-entry map (existing key, overwriting the old value 1 with 9). -/
theorem c3_witness :
    Map.WF (Map.new.put (.vstr "a") (.vint 1)) ∧
    ((Map.new.put (.vstr "a") (.vint 1)).getOrPut (.vstr "a") (.vint 9)).2 =
      (.vint 9, (Map.new.put (.vstr "a") (.vint 1)).containsKey (.vstr "a")) ∧
    ((Map.new.put (.vstr "a") (.vint 1)).containsKey (.vstr "a") = false →
      ((Map.new.put (.vstr "a") (.vint 1)).getOrPut (.vstr "a") (.vint 9)).1.dll
        = (Map.new.put (.vstr "a") (.vint 1)).nextId ::
          (Map.new.put (.vstr "a") (.vint 1)).dll) ∧
    ((Map.new.put (.vstr "a") (.vint 1)).getOrPut (.vstr "a") (.vint 9)).1.get
      (.vstr "a") = (.vint 9, true) :=
  ⟨by decide, c3_getOrPut_contract (Map.new.put (.vstr "a") (.vint 1)) _ _
    (by decide)⟩

/-- C4: the spec example `Put("a",1); Put("b",2); Put("a",3)` does give
`Length() == 2` and an `OrderedRange` traversal `[("a",3), ("b",2)]`, and
`GetAndDelete("b")` does report `existed = true` and leave `Length() == 1`
— but its returned value is the boxed `mapElement\x7b"b", 2\x7d` struct
(`e.Value`), not the bare stored value `2` the claim states, because of the
same slip as in C1. -/
theorem c4_example_scenario :
    (((Map.new.put (.vstr "a") (.vint 1)).put (.vstr "b") (.vint 2)).put
        (.vstr "a") (.vint 3)).length = 2 ∧
    (((Map.new.put (.vstr "a") (.vint 1)).put (.vstr "b") (.vint 2)).put
        (.vstr "a") (.vint 3)).orderedVisits =
      [(.vstr "a", .vint 3), (.vstr "b", .vint 2)] ∧
    ((((Map.new.put (.vstr "a") (.vint 1)).put (.vstr "b") (.vint 2)).put
        (.vstr "a") (.vint 3)).getAndDelete (.vstr "b")).2 =
      (GoVal.velem (.vstr "b") (.vint 2), true) ∧
    GoVal.velem (.vstr "b") (.vint 2) ≠ GoVal.vint 2 ∧
    ((((Map.new.put (.vstr "a") (.vint 1)).put (.vstr "b") (.vint 2)).put
        (.vstr "a") (.vint 3)).getAndDelete (.vstr "b")).1.length = 1 := by
  decide

/-- C5: `Put(k, v)` on a present key leaves the Sequence (hence every key's
position in the `OrderedRange` traversal) unchanged, overwrites the stored
value, and touches no other key; only a fresh insertion of an absent key
creates a new front node. -/
theorem c5_put_preserves_position (m : Map) (k v : GoVal) (h : m.WF) :
    (m.containsKey k = true →
      (m.put k v).dll = m.dll ∧
      ((m.put k v).orderedVisits).map Prod.fst =
        (m.orderedVisits).map Prod.fst ∧
      (m.put k v).get k = (v, true) ∧
      (∀ k2, k2 ≠ k → (m.put k v).get k2 = m.get k2)) ∧
    (m.containsKey k = false → (m.put k v).dll = m.nextId :: m.dll) := by
  constructor
  · intro hpres
    exact ⟨put_dll_present v hpres,
      orderedVisits_keys_put_present h v hpres,
      put_get_self h k v,
      fun k2 hne => put_get_ne h v hne⟩
  · intro habs
    exact put_dll_absent v habs

/-- C5 witness: re-putting key "a" (already present, value 1 ↦ 3) in a
two-key map keeps the Sequence unchanged. -/
theorem c5_witness :
    Map.WF ((Map.new.put (.vstr "a") (.vint 1)).put (.vstr "b") (.vint 2)) ∧
    ((((Map.new.put (.vstr "a") (.vint 1)).put (.vstr "b") (.vint 2)).containsKey
        (.vstr "a") = true →
      (((Map.new.put (.vstr "a") (.vint 1)).put (.vstr "b") (.vint 2)).put
          (.vstr "a") (.vint 3)).dll =
        ((Map.new.put (.vstr "a") (.vint 1)).put (.vstr "b") (.vint 2)).dll ∧
      ((((Map.new.put (.vstr "a") (.vint 1)).put (.vstr "b") (.vint 2)).put
          (.vstr "a") (.vint 3)).orderedVisits).map Prod.fst =
        (((Map.new.put (.vstr "a") (.vint 1)).put
          (.vstr "b") (.vint 2)).orderedVisits).map Prod.fst ∧
      (((Map.new.put (.vstr "a") (.vint 1)).put (.vstr "b") (.vint 2)).put
          (.vstr "a") (.vint 3)).get (.vstr "a") = (.vint 3, true) ∧
      (∀ k2, k2 ≠ GoVal.vstr "a" →
        (((Map.new.put (.vstr "a") (.vint 1)).put (.vstr "b") (.vint 2)).put
            (.vstr "a") (.vint 3)).get k2 =
          ((Map.new.put (.vstr "a") (.vint 1)).put (.vstr "b") (.vint 2)).get
            k2)) ∧
    (((Map.new.put (.vstr "a") (.vint 1)).put (.vstr "b") (.vint 2)).containsKey
        (.vstr "a") = false →
      (((Map.new.put (.vstr "a") (.vint 1)).put (.vstr "b") (.vint 2)).put
          (.vstr "a") (.vint 3)).dll =
        ((Map.new.put (.vstr "a") (.vint 1)).put (.vstr "b") (.vint 2)).nextId ::
          ((Map.new.put (.vstr "a") (.vint 1)).put (.vstr "b") (.vint 2)).dll)) :=
  ⟨by decide, c5_put_preserves_position
    ((Map.new.put (.vstr "a") (.vint 1)).put (.vstr "b") (.vint 2)) _ _
    (by decide)⟩

/-- C6: `Get(k)` immediately after `Put(k, v)` returns `(v, true)`, and
`Get` of an absent key returns the zero value `nil` with `found = false`;
`Get` is embedded as a pure function of the state (it only takes the read
lock in the code), so it has no side effects by construction. -/
theorem c6_get_after_put (m : Map) (k v : GoVal) (h : m.WF) :
    (m.put k v).get k = (v, true) ∧
    (∀ k2, m.containsKey k2 = false → m.get k2 = (.vnil, false)) := by
  refine ⟨put_get_self h k v, ?_⟩
  intro k2 habs
  have h2 : mpGet m.mp k2 = none := containsKey_eq_false_iff.mp habs
  simp [Map.get, h2]

/-- C6 witness: `Put("a",1)` then `Get("a")` on a map that already holds
key "b"; and `Get` of the never-inserted key "z" reports not found. -/
theorem c6_witness :
    Map.WF (Map.new.put (.vstr "b") (.vint 7)) ∧
    ((Map.new.put (.vstr "b") (.vint 7)).put (.vstr "a") (.vint 1)).get
      (.vstr "a") = (.vint 1, true) ∧
    (∀ k2, (Map.new.put (.vstr "b") (.vint 7)).containsKey k2 = false →
      (Map.new.put (.vstr "b") (.vint 7)).get k2 = (.vnil, false)) :=
  ⟨by decide, c6_get_after_put (Map.new.put (.vstr "b") (.vint 7)) _ _
    (by decide)⟩

/-- C7: `Delete(k)` returns `true` exactly when `k` is present; on success
the key becomes unlookupable, it leaves the Index, and the length drops by
exactly one; on an absent key the state is returned unchanged with `false`;
no other key is affected in either case. -/
theorem c7_delete_contract (m : Map) (k : GoVal) (h : m.WF) :
    (m.delete k).2 = m.containsKey k ∧
    (m.containsKey k = true →
      (m.delete k).1.get k = (.vnil, false) ∧
      (m.delete k).1.containsKey k = false ∧
      (m.delete k).1.length + 1 = m.length) ∧
    (m.containsKey k = false → (m.delete k).1 = m) ∧
    (∀ k2, k2 ≠ k → (m.delete k).1.get k2 = m.get k2) := by
  refine ⟨delete_snd_eq m k, ?_, ?_, ?_⟩
  · intro hpres
    exact ⟨delete_get_self m k, delete_containsKey_self m k,
      delete_length h hpres⟩
  · intro habs
    rw [delete_of_absent habs]
  · intro k2 hne
    exact delete_get_ne hne

/-- C7 witness: deleting the present key "a" from a two-key map drops the
length from 2 to 1 and makes the key unlookupable. -/
theorem c7_witness :
    Map.WF ((Map.new.put (.vstr "a") (.vint 1)).put (.vstr "b") (.vint 2)) ∧
    ((((Map.new.put (.vstr "a") (.vint 1)).put (.vstr "b") (.vint 2)).delete
        (.vstr "a")).1.length + 1 =
      ((Map.new.put (.vstr "a") (.vint 1)).put (.vstr "b") (.vint 2)).length) ∧
    ((((Map.new.put (.vstr "a") (.vint 1)).put (.vstr "b") (.vint 2)).delete
        (.vstr "a")).1.get (.vstr "a") = (.vnil, false)) :=
  ⟨by decide,
   ((c7_delete_contract ((Map.new.put (.vstr "a") (.vint 1)).put (.vstr "b")
      (.vint 2)) (.vstr "a") (by decide)).2.1 (by decide)).2.2,
   ((c7_delete_contract ((Map.new.put (.vstr "a") (.vint 1)).put (.vstr "b")
      (.vint 2)) (.vstr "a") (by decide)).2.1 (by decide)).1⟩

/-- C8: in every state reachable from `New()`, the Index entries and the
Sequence nodes are in bijection (their node-id columns are permutations of
each other, both duplicate-free); consequently `UnorderedRange` and
`OrderedRange` visit the same multiset of `(key, value)` pairs, each visits
every present key exactly once, and `Length()` equals the number of present
keys. -/
theorem c8_index_sequence_bijection (m : Map) (h : m.Reachable) :
    (m.mp.map Prod.snd).Perm m.dll ∧
    m.unorderedVisits.Perm m.orderedVisits ∧
    (m.unorderedVisits.map Prod.fst).Nodup ∧
    (m.orderedVisits.map Prod.fst).Nodup ∧
    m.length = m.mp.length := by
  have hwf := reachable_wf h
  have hperm := wf_unorderedVisits_perm hwf
  have hkeys : (m.unorderedVisits.map Prod.fst).Nodup := by
    rw [unorderedVisits_keys]
    exact hwf.1
  refine ⟨wf_mp_snd_perm_dll hwf, hperm, hkeys, ?_, ?_⟩
  · exact ((hperm.map Prod.fst).nodup_iff).mp hkeys
  · have hlen := (wf_mp_snd_perm_dll hwf).length_eq
    rw [Map.length, ← hlen, List.length_map]

/-- C8 witness: the bijection invariant at the reachable state
`New(); Put("a",1)`. -/
theorem c8_witness :
    (Map.new.put (.vstr "a") (.vint 1)).Reachable ∧
    (((Map.new.put (.vstr "a") (.vint 1)).mp.map Prod.snd).Perm
        (Map.new.put (.vstr "a") (.vint 1)).dll ∧
    (Map.new.put (.vstr "a") (.vint 1)).unorderedVisits.Perm
      (Map.new.put (.vstr "a") (.vint 1)).orderedVisits ∧
    ((Map.new.put (.vstr "a") (.vint 1)).unorderedVisits.map Prod.fst).Nodup ∧
    ((Map.new.put (.vstr "a") (.vint 1)).orderedVisits.map Prod.fst).Nodup ∧
    (Map.new.put (.vstr "a") (.vint 1)).length =
      (Map.new.put (.vstr "a") (.vint 1)).mp.length) :=
  ⟨Map.Reachable.put _ _ Map.Reachable.new,
   c8_index_sequence_bijection _ (Map.Reachable.put _ _ Map.Reachable.new)⟩

/-- C10: `Put(k, v)` and `GetOrPut(k, v)` grow `Length()` by exactly one on
an absent key and leave it unchanged on a present key, and neither removes
or alters any other key's entry. -/
theorem c10_put_length_and_frame (m : Map) (k v : GoVal) (h : m.WF) :
    (m.containsKey k = false →
      (m.put k v).length = m.length + 1 ∧
      (m.getOrPut k v).1.length = m.length + 1) ∧
    (m.containsKey k = true →
      (m.put k v).length = m.length ∧
      (m.getOrPut k v).1.length = m.length) ∧
    (∀ k2, k2 ≠ k → (m.put k v).get k2 = m.get k2 ∧
      (m.getOrPut k v).1.get k2 = m.get k2) := by
  refine ⟨?_, ?_, ?_⟩
  · intro habs
    rw [getOrPut_fst]
    exact ⟨put_length_absent v habs, put_length_absent v habs⟩
  · intro hpres
    rw [getOrPut_fst]
    exact ⟨put_length_present v hpres, put_length_present v hpres⟩
  · intro k2 hne
    rw [getOrPut_fst]
    exact ⟨put_get_ne h v hne, put_get_ne h v hne⟩

/-- C10 witness: the length and frame conditions at a one-entry map, for
the absent key "b" and values around it. -/
theorem c10_witness :
    Map.WF (Map.new.put (.vstr "a") (.vint 1)) ∧
    (((Map.new.put (.vstr "a") (.vint 1)).containsKey (.vstr "b") = false →
      ((Map.new.put (.vstr "a") (.vint 1)).put (.vstr "b") (.vint 2)).length =
        (Map.new.put (.vstr "a") (.vint 1)).length + 1 ∧
      ((Map.new.put (.vstr "a") (.vint 1)).getOrPut (.vstr "b")
          (.vint 2)).1.length =
        (Map.new.put (.vstr "a") (.vint 1)).length + 1) ∧
    ((Map.new.put (.vstr "a") (.vint 1)).containsKey (.vstr "b") = true →
      ((Map.new.put (.vstr "a") (.vint 1)).put (.vstr "b") (.vint 2)).length =
        (Map.new.put (.vstr "a") (.vint 1)).length ∧
      ((Map.new.put (.vstr "a") (.vint 1)).getOrPut (.vstr "b")
          (.vint 2)).1.length =
        (Map.new.put (.vstr "a") (.vint 1)).length) ∧
    (∀ k2, k2 ≠ GoVal.vstr "b" →
      ((Map.new.put (.vstr "a") (.vint 1)).put (.vstr "b") (.vint 2)).get k2 =
        (Map.new.put (.vstr "a") (.vint 1)).get k2 ∧
      ((Map.new.put (.vstr "a") (.vint 1)).getOrPut (.vstr "b")
          (.vint 2)).1.get k2 =
        (Map.new.put (.vstr "a") (.vint 1)).get k2)) :=
  ⟨by decide, c10_put_length_and_frame (Map.new.put (.vstr "a") (.vint 1)) _ _
    (by decide)⟩
